import Mathlib

/-! cppunicode: word-frequency counting over a directory tree.

A shallow embedding of `src/cppunicode.cpp` and the properties of its
tokenizer, per-file counter, bounded task queue, merge step and top-10
selection.

Modelling conventions.

* A decoded line (`icu::UnicodeString::fromUTF8(line)`) is a `List Char`:
  a sequence of Unicode scalar values (ill-formed bytes have already become
  U+FFFD, which is a scalar value too).
* A `std::string` word is the `List Char` it encodes in UTF-8.
* `int64_t` counts are `Int`; reaching `2^63` occurrences needs a corpus
  beyond any file system, so the range is not modelled.
* `std::unordered_map<std::string, int64_t>` is an association list with
  distinct keys.  Its iteration order is unspecified in C++, so every
  statement that depends on the order quantifies over all permutations.
* A `std::future<WordMap>` made by `std::async(count_word_files, e)` is the
  entry `e`; `get()` evaluates `count_word_files` on it.
* The recursive directory iterator is the finite sequence of entries it yields.
* `std::partial_sort` is a parameter constrained by the postcondition the C++
  standard gives it; `partial_sort` below is one executable instance.
* The default locale of ICU enters through one bit, `turkic`.
-/

namespace CppUnicode

/-! ## Data model -/

/-- `struct WordCount { std::string word; int64_t count; }`. -/
structure WordCount where
  word : List Char
  count : Int
deriving DecidableEq, Repr

/-- `typedef std::unordered_map<std::string, int64_t> WordMap`: the entries in
iteration order. -/
abbrev WordMap := List (List Char × Int)

/-- The keys of a map are pairwise distinct. -/
def WordMap.WF (m : WordMap) : Prop := (m.map Prod.fst).Nodup

instance (m : WordMap) : Decidable (WordMap.WF m) := by
  unfold WordMap.WF
  infer_instance

/-- `m.find(k)`: the value stored under `k`, if any. -/
def WordMap.find (m : WordMap) (k : List Char) : Option Int :=
  match m with
  | [] => none
  | (k1, v) :: rest => if k1 = k then some v else WordMap.find rest k

/-- The count of `k`, an absent word counting as 0. -/
def WordMap.get (m : WordMap) (k : List Char) : Int := (WordMap.find m k).getD 0

/-- `m[k] += v`: `operator[]` value-initialises an absent key to 0 and the
sum is stored; a present key is updated in place. -/
def WordMap.add (m : WordMap) (k : List Char) (v : Int) : WordMap :=
  match m with
  | [] => [(k, 0 + v)]
  | (k1, c) :: rest => if k1 = k then (k1, c + v) :: rest else (k1, c) :: WordMap.add rest k v

/-- `count_order_desc`: `w1` goes before `w2` when `w2.count < w1.count`. -/
def count_order_desc (w1 w2 : WordCount) : Bool := decide (w2.count < w1.count)

/-! ## Tokenizer: `icu::RegexMatcher u_word_regex("([a-z]{2,})", UREGEX_CASE_INSENSITIVE)` -/

/-- The 52 ASCII letters. -/
def isAsciiLetter (c : Char) : Bool :=
  (97 ≤ c.toNat && c.toNat ≤ 122) || (65 ≤ c.toNat && c.toNat ≤ 90)

/-- The characters the set `[a-z]` matches under `UREGEX_CASE_INSENSITIVE`.
ICU compiles a bracket set under that flag by closing it over case
(`regexcmp.cpp`: `doSetBegin` pushes `setCaseClose`, evaluated as
`UnicodeSet::closeOver` followed by `removeAllStrings`; `uset.h` documents the
closure as "a full closure over case mappings, e.g. U+017F for s").  The
closure of `[a-z]` is `[A-Za-z]` together with U+017F LATIN SMALL LETTER LONG S
(which folds to `s`) and U+212A KELVIN SIGN (which folds to `k`). -/
def inWordSet (c : Char) : Bool :=
  isAsciiLetter c || c.toNat == 0x17F || c.toNat == 0x212A

/-- The longest run that one match attempt can take.  The matcher keeps the
default limit of its backtrack stack (the source never calls `setStackLimit`):
8,000,000 bytes, which are 2,000,000 slots.  A frame of this pattern has 7
slots, and the counted loop of `{2,}` saves one frame for every character it
takes on top of the first frame, so a run of `L` characters needs `L + 1`
frames.  285,714 frames fit, hence runs of up to 285,713 characters. -/
def max_run : Nat := 285713

/-- The outcome of one match attempt: the matched text with the input after
it, no match at this position, or `U_REGEX_STACK_OVERFLOW`. -/
inductive Attempt where
  | matched (w rest : List Char)
  | no_match
  | stack_overflow
deriving DecidableEq, Repr

/-- One attempt of `[a-z]{2,}` at the start of `s`: the greedy quantifier
takes every leading character of the set.  The attempt fails when fewer than
two were taken, and ends in `U_REGEX_STACK_OVERFLOW` when the run is longer
than `max_run`; otherwise it yields the run and the input after it. -/
def match_here (s : List Char) : Attempt :=
  let run := s.takeWhile inWordSet
  if run.length < 2 then Attempt.no_match
  else if max_run < run.length then Attempt.stack_overflow
  else Attempt.matched run (s.dropWhile inWordSet)

/-- `u_word_regex.find()`: the leftmost position at which the pattern matches.
The matcher state is the input not yet consumed; the result is the matched
text (`us.tempSubString(match_start, match_end - match_start)`) and the input
after `match_end`.  The source calls `find()` without a status argument, which
returns `false` when the attempt ends in an error, so a stack overflow ends
the search like the absence of a match. -/
def find : List Char → Option (List Char × List Char)
  | [] => none
  | c :: cs =>
    match match_here (c :: cs) with
    | Attempt.matched w rest => some (w, rest)
    | Attempt.no_match => find cs
    | Attempt.stack_overflow => none

/-- `UnicodeString::toLower()` on one character of a match, in the default
locale.  `turkic` says whether the default locale is Turkish or Azerbaijani,
where `I` lowers to U+0131 (dotless i); no match contains U+0307, so no
context rule applies.  U+212A lowers to `k`, U+017F is lower case already. -/
def toLowerChar (turkic : Bool) (c : Char) : Char :=
  if c.toNat == 73 && turkic then Char.ofNat 0x131
  else if 65 ≤ c.toNat && c.toNat ≤ 90 then Char.ofNat (c.toNat + 32)
  else if c.toNat == 0x212A then Char.ofNat 107
  else c

/-- `current_match.toLower()` followed by `toUTF8String`. -/
def toLower (turkic : Bool) (w : List Char) : List Char := w.map (toLowerChar turkic)

/-- The loop `while(u_word_regex.find()) { ... ++file_word_counts[matched_word]; }`
over one line, with `fuel` bounding the number of iterations. -/
def count_matches (turkic : Bool) : Nat → List Char → WordMap → WordMap
  | 0, _, m => m
  | fuel + 1, s, m =>
    match find s with
    | none => m
    | some (w, rest) => count_matches turkic fuel rest (WordMap.add m (toLower turkic w) 1)

/-- The words the loop counts on one line, in order (the keys passed to
`++file_word_counts[...]`). -/
def matched_words (turkic : Bool) : Nat → List Char → List (List Char)
  | 0, _ => []
  | fuel + 1, s =>
    match find s with
    | none => []
    | some (w, rest) => toLower turkic w :: matched_words turkic fuel rest

/-- The body of `count_word_files` for one line: `u_word_regex.reset(us)` and
the `find` loop.  Every successful `find` consumes at least two characters, so
`us.length` iterations are enough.  A loop that a stack overflow has ended
leaves the words after the overflowing run uncounted; the next line starts
from a fresh `reset`. -/
def count_line (turkic : Bool) (m : WordMap) (us : List Char) : WordMap :=
  count_matches turkic us.length us m

/-! ## Directory entries and `count_word_files` -/

/-- What the program observes of a `std::filesystem::directory_entry`: its
path, the value `is_regular_file()` returns, whether opening it with
`std::ifstream` fails, and the decoded lines `std::getline` yields.  Entries
whose status cannot be read (where `is_regular_file()` throws) are outside the
model. -/
structure directory_entry where
  path : List Char
  is_regular_file : Bool
  open_fails : Bool
  lines : List (List Char)
deriving DecidableEq, Repr

/-- `path::filename()`: the text after the last directory separator. -/
def path_filename (p : List Char) : List Char :=
  (p.reverse.takeWhile (fun c => c != '/')).reverse

/-- `path::extension()`: empty for the file names `.` and `..`, for a name
without a period and for a name whose only period is its first character;
otherwise the suffix of the file name that starts at its last period. -/
def path_extension (p : List Char) : List Char :=
  let f := path_filename p
  let suffix := (f.reverse.takeWhile (fun c => c != '.')).reverse
  if f = ['.'] ∨ f = ['.', '.'] then []
  else if !f.contains '.' then []
  else if f.length = suffix.length + 1 then []
  else '.' :: suffix

/-- `count_word_files(e)`.  The regular expression is a constant that
compiles, so the `abort` branch is not reachable. -/
def count_word_files (turkic : Bool) (e : directory_entry) : WordMap :=
  if !e.is_regular_file then []
  else if e.open_fails then []
  else e.lines.foldl (count_line turkic) []

/-! ## The scheduler: `pop_future` and the first half of `count_words` -/

/-- The loop `for(const auto&[key, value]: file_counts) word_counts[key] += value;`. -/
def merge (word_counts file_counts : WordMap) : WordMap :=
  file_counts.foldl (fun acc kv => WordMap.add acc kv.1 kv.2) word_counts

/-- The variables `word_counts` and `futures` of `count_words`, and a history
variable `merged` (not in the source) that records, oldest first, the tasks
whose results have been merged. -/
structure Sched where
  word_counts : WordMap
  futures : List directory_entry
  merged : List directory_entry
deriving DecidableEq, Repr

/-- `pop_future(word_counts, futures)`: fails on an empty queue (the
`assert`), otherwise takes the front future, erases it and adds its counts. -/
def pop_future (turkic : Bool) (s : Sched) : Option Sched :=
  match s.futures with
  | [] => none
  | f :: rest =>
    some { word_counts := merge s.word_counts (count_word_files turkic f),
           futures := rest,
           merged := s.merged ++ [f] }

/-- The filter of the walk: `extension == ".txt" || extension == ".TXT"`. -/
def is_txt (e : directory_entry) : Bool :=
  decide (path_extension e.path = ['.', 't', 'x', 't']) ||
  decide (path_extension e.path = ['.', 'T', 'X', 'T'])

/-- `futures.emplace_back(std::async(std::launch::async, count_word_files, e))`. -/
def submit (s : Sched) (e : directory_entry) : Sched :=
  { s with futures := s.futures ++ [e] }

/-- One iteration of the `for` loop over the directory iterator. -/
def walk_step (turkic : Bool) (num_threads : Nat) (s : Sched) (e : directory_entry) :
    Option Sched :=
  if !is_txt e then some s
  else
    let s1 := submit s e
    if s1.futures.length > num_threads then pop_future turkic s1 else some s1

/-- The `for` loop over the entries the directory iterator yields. -/
def walk (turkic : Bool) (num_threads : Nat) : List directory_entry → Sched → Option Sched
  | [], s => some s
  | e :: es, s => (walk_step turkic num_threads s e).bind (walk turkic num_threads es)

/-- The loop `while(!futures.empty()) pop_future(word_counts, futures);` with
`fuel` bounding the number of iterations. -/
def drain (turkic : Bool) : Nat → Sched → Option Sched
  | 0, s => if s.futures.isEmpty then some s else none
  | fuel + 1, s =>
    if s.futures.isEmpty then some s else (pop_future turkic s).bind (drain turkic fuel)

/-- Lines 92-111 of `count_words`: the walk and the final drain.  The
`assert(num_threads != 0)` fails for 0; each drain iteration removes one
future, so `futures.size()` iterations are enough. -/
def aggregate (turkic : Bool) (num_threads : Nat) (entries : List directory_entry) :
    Option Sched :=
  if num_threads = 0 then none
  else (walk turkic num_threads entries ⟨[], [], []⟩).bind
    (fun s => drain turkic s.futures.length s)

/-! ## Ranking: the second half of `count_words` -/

/-- The postcondition of `std::partial_sort(first, first + k, last, comp)`:
the range is permuted, its first `k` elements are ordered with respect to
`comp`, and no later element goes before one of them. -/
def PartialSortSpec {α : Type} (comp : α → α → Bool) (k : Nat) (input output : List α) :
    Prop :=
  output.Perm input ∧
  (output.take k).Pairwise (fun a b => comp b a = false) ∧
  ∀ a ∈ output.take k, ∀ b ∈ output.drop k, comp b a = false

/-- A sorting routine that meets the contract of `std::partial_sort` for the
comparator `count_order_desc`. -/
def IsPartialSort (psort : Nat → List WordCount → List WordCount) : Prop :=
  ∀ k l, k ≤ l.length → PartialSortSpec count_order_desc k l (psort k l)

/-- Removes from `x :: xs` the first element that no other element goes
before, and returns it with the remaining elements. -/
def select_first {α : Type} (comp : α → α → Bool) : α → List α → α × List α
  | x, [] => (x, [])
  | x, y :: ys =>
    let r := select_first comp y ys
    if comp r.1 x then (r.1, x :: r.2) else (x, y :: ys)

/-- An executable `std::partial_sort`: `k` rounds of selection. -/
def partial_sort {α : Type} (comp : α → α → Bool) : Nat → List α → List α
  | 0, l => l
  | _ + 1, [] => []
  | k + 1, x :: xs =>
    let r := select_first comp x xs
    r.1 :: partial_sort comp k r.2

/-- `(int)word_array.size()`: conversion of a `size_t` to a 32-bit `int`, which
reduces the value modulo `2^32` into the range `[-2^31, 2^31)`. -/
def to_int (n : Nat) : Int :=
  if n % 2 ^ 32 < 2 ^ 31 then ((n % 2 ^ 32 : Nat) : Int) else ((n % 2 ^ 32 : Nat) : Int) - 2 ^ 32

/-- `std::min(10, (int)word_array.size())`. -/
def final_size (word_array : List WordCount) : Int := min 10 (to_int word_array.length)

/-- The loop that copies the map into `word_array`; `order` is the iteration
order of the unordered map. -/
def to_word_array (order : WordMap → WordMap) (word_counts : WordMap) : List WordCount :=
  (order word_counts).map (fun kv => ⟨kv.1, kv.2⟩)

/-- Lines 119-124 of `count_words`: `partial_sort` of the first `final_size`
places and `erase` of the rest.  A negative `final_size` makes
`word_array.begin() + final_size` undefined, which is `none`. -/
def rank (psort : Nat → List WordCount → List WordCount) (word_array : List WordCount) :
    Option (List WordCount) :=
  if final_size word_array < 0 then none
  else some ((psort (final_size word_array).toNat word_array).take (final_size word_array).toNat)

/-- `std::cout << word_info.count << " " << word_info.word << "\n"`: the line
without its terminator. -/
def print_line (w : WordCount) : List Char :=
  (toString w.count).toList ++ ' ' :: w.word

/-- `count_words()`: the lines written to standard output.  `entries` is the
sequence the recursive directory iterator yields. -/
def count_words (turkic : Bool) (num_threads : Nat)
    (order : WordMap → WordMap) (psort : Nat → List WordCount → List WordCount)
    (entries : List directory_entry) : Option (List (List Char)) :=
  (aggregate turkic num_threads entries).bind fun s =>
    (rank psort (to_word_array order s.word_counts)).map fun out => out.map print_line

/-! ## Specification-side definitions -/

/-- The sum of the values stored under `k` in a list of entries. -/
def total (l : WordMap) (k : List Char) : Int :=
  ((l.filter (fun kv => decide (kv.1 = k))).map Prod.snd).sum

/-- The global map is the fold of the merge over the tasks merged so far. -/
def Sched.Inv (turkic : Bool) (s : Sched) : Prop :=
  s.word_counts = (s.merged.map (count_word_files turkic)).foldl merge []

/-- A list of counts sorted in non-increasing order. -/
def sort_desc (l : List Int) : List Int := l.insertionSort (fun a b => b ≤ a)

/-! ## Example corpus -/

/-- The file `a.txt` holding the line "cat dog cat". -/
def a_txt : directory_entry := ⟨"./a.txt".toList, true, false, ["cat dog cat".toList]⟩

/-- The file `b.txt` holding the line "dog dog bird". -/
def b_txt : directory_entry := ⟨"./b.txt".toList, true, false, ["dog dog bird".toList]⟩

/-- A file whose extension has mixed case. -/
def a_Txt : directory_entry := ⟨"./a.Txt".toList, true, false, ["zebra zebra".toList]⟩

/-- A file with the upper-case extension. -/
def a_TXT : directory_entry := ⟨"./sub/a.TXT".toList, true, false, ["Dog".toList]⟩

/-- The word with index `i`: `ww` followed by the base-26 digits of `i`,
written as the letters `a` to `z`. -/
def word_of (i : Nat) : List Char :=
  'w' :: 'w' :: (Nat.digits 26 i).map (fun d => Char.ofNat (97 + d))

/-- The map of the `n` distinct words `word_of 0`, ..., `word_of (n - 1)`, each
with count 1. -/
def unit_map (n : Nat) : WordMap := (List.range n).map (fun i => (word_of i, 1))

/-! ## Lemmas on maps -/

theorem find_add (m : WordMap) (k k2 : List Char) (v : Int) :
    WordMap.find (WordMap.add m k v) k2 =
      if k = k2 then some (WordMap.get m k + v) else WordMap.find m k2 := by
  induction m with
  | nil =>
    by_cases h : k = k2 <;> simp [WordMap.add, WordMap.find, WordMap.get, h]
  | cons kv rest ih =>
    obtain ⟨k1, c⟩ := kv
    by_cases h1 : k1 = k
    · subst h1
      by_cases h : k1 = k2 <;> simp [WordMap.add, WordMap.find, WordMap.get, h]
    · by_cases h : k = k2
      · subst h
        simp [WordMap.add, WordMap.find, WordMap.get, h1, ih]
      · by_cases h2 : k1 = k2
        · subst h2
          simp [WordMap.add, WordMap.find, h1, h]
        · simp [WordMap.add, WordMap.find, h1, h, h2, ih]

theorem get_add (m : WordMap) (k k2 : List Char) (v : Int) :
    WordMap.get (WordMap.add m k v) k2 =
      if k = k2 then WordMap.get m k + v else WordMap.get m k2 := by
  unfold WordMap.get
  rw [find_add]
  by_cases h : k = k2 <;> simp [h, WordMap.get]

theorem keys_add (m : WordMap) (k : List Char) (v : Int) :
    (WordMap.add m k v).map Prod.fst =
      if k ∈ m.map Prod.fst then m.map Prod.fst else m.map Prod.fst ++ [k] := by
  induction m with
  | nil => simp [WordMap.add]
  | cons kv rest ih =>
    obtain ⟨k1, c⟩ := kv
    by_cases h1 : k1 = k
    · subst h1; simp [WordMap.add]
    · have h1b : ¬ k = k1 := fun h => h1 h.symm
      simp only [WordMap.add, h1, if_false, List.map_cons, ih, List.mem_cons, h1b, false_or]
      split <;> simp

theorem wf_add (m : WordMap) (k : List Char) (v : Int) (h : WordMap.WF m) :
    WordMap.WF (WordMap.add m k v) := by
  unfold WordMap.WF at *
  rw [keys_add]
  split
  · exact h
  · rename_i hk
    exact List.Nodup.append h (List.nodup_singleton k) (by simpa using hk)

theorem find_eq_none_iff (m : WordMap) (k : List Char) :
    WordMap.find m k = none ↔ k ∉ m.map Prod.fst := by
  induction m with
  | nil => simp [WordMap.find]
  | cons kv rest ih =>
    obtain ⟨k1, c⟩ := kv
    by_cases h : k1 = k
    · subst h; simp [WordMap.find]
    · have h2 : ¬ k = k1 := fun e => h e.symm
      simp [WordMap.find, h, h2, ih]

theorem find_eq_some_iff (m : WordMap) (hm : WordMap.WF m) (k : List Char) (v : Int) :
    WordMap.find m k = some v ↔ (k, v) ∈ m := by
  induction m with
  | nil => simp [WordMap.find]
  | cons kv rest ih =>
    obtain ⟨k1, c⟩ := kv
    have hm2 : k1 ∉ rest.map Prod.fst ∧ WordMap.WF rest := by
      simpa [WordMap.WF] using hm
    by_cases h : k1 = k
    · subst h
      simp only [WordMap.find, if_true, Option.some.injEq, List.mem_cons, Prod.mk.injEq,
        true_and]
      constructor
      · intro e; exact Or.inl e.symm
      · rintro (e | e)
        · exact e.symm
        · exact absurd (List.mem_map_of_mem Prod.fst e) hm2.1
    · have h2 : ¬ k = k1 := fun e => h e.symm
      simp [WordMap.find, h, h2, ih hm2.2]

theorem total_eq_get (m : WordMap) (hm : WordMap.WF m) (k : List Char) :
    total m k = WordMap.get m k := by
  induction m with
  | nil => simp [total, WordMap.get, WordMap.find]
  | cons kv rest ih =>
    obtain ⟨k1, c⟩ := kv
    have hm2 : k1 ∉ rest.map Prod.fst ∧ WordMap.WF rest := by
      simpa [WordMap.WF] using hm
    have ih2 := ih hm2.2
    by_cases h : k1 = k
    · subst h
      have hnone : WordMap.find rest k1 = none := (find_eq_none_iff rest k1).2 hm2.1
      have h0 : total rest k1 = 0 := by rw [ih2]; simp [WordMap.get, hnone]
      simp only [total] at h0 ⊢
      simp [WordMap.get, WordMap.find, List.filter_cons, h0]
    · simp only [total] at ih2 ⊢
      simp [WordMap.get, WordMap.find, List.filter_cons, h, ih2]

theorem find_merge (g l : WordMap) (k : List Char) :
    WordMap.find (merge g l) k =
      if k ∈ l.map Prod.fst then some (WordMap.get g k + total l k) else WordMap.find g k := by
  induction l generalizing g with
  | nil => simp [merge]
  | cons kv rest ih =>
    obtain ⟨k1, c⟩ := kv
    have hstep : merge g ((k1, c) :: rest) = merge (WordMap.add g k1 c) rest := by
      simp [merge]
    rw [hstep, ih, get_add, find_add]
    by_cases h : k1 = k
    · subst h
      by_cases hr : k1 ∈ rest.map Prod.fst
      · simp only [total] 
        simp [hr, List.filter_cons, add_assoc]
      · have h0 : total rest k1 = 0 := by
          simp only [total]
          have : rest.filter (fun kv => decide (kv.1 = k1)) = [] := by
            rw [List.filter_eq_nil_iff]
            intro a ha hk
            exact hr (List.mem_map.2 ⟨a, ha, by simpa using hk⟩)
          simp [this]
        simp only [total] at h0 ⊢
        simp [hr, List.filter_cons, h0]
    · have h2 : ¬ k = k1 := fun e => h e.symm
      simp only [total]
      by_cases hr : k ∈ rest.map Prod.fst
      · have hr2 : k ∈ k1 :: rest.map Prod.fst := List.mem_cons_of_mem _ hr
        simp only [List.map_cons] at *
        rw [if_pos hr, if_pos hr2]
        simp [h, h2, List.filter_cons]
      · have hr2 : k ∉ k1 :: rest.map Prod.fst := by
          simpa [List.mem_cons, h2] using hr
        simp only [List.map_cons] at *
        rw [if_neg hr, if_neg hr2]
        simp [h]

theorem get_merge (g l : WordMap) (k : List Char) :
    WordMap.get (merge g l) k = WordMap.get g k + total l k := by
  unfold WordMap.get
  rw [find_merge]
  split
  · simp [WordMap.get]
  · rename_i hk
    have : l.filter (fun kv => decide (kv.1 = k)) = [] := by
      rw [List.filter_eq_nil_iff]
      intro a ha hk2
      exact hk (List.mem_map.2 ⟨a, ha, by simpa using hk2⟩)
    simp [total, this]

theorem wf_merge (g l : WordMap) (h : WordMap.WF g) : WordMap.WF (merge g l) := by
  induction l generalizing g with
  | nil => simpa [merge] using h
  | cons kv rest ih =>
    have hstep : merge g (kv :: rest) = merge (WordMap.add g kv.1 kv.2) rest := by
      simp [merge]
    rw [hstep]
    exact ih _ (wf_add g kv.1 kv.2 h)

theorem count_matches_eq (turkic : Bool) (n : Nat) :
    ∀ (s : List Char) (m : WordMap),
      count_matches turkic n s m =
        (matched_words turkic n s).foldl (fun acc w => WordMap.add acc w 1) m := by
  induction n with
  | zero => intro s m; simp [count_matches, matched_words]
  | succ n ih =>
    intro s m
    unfold count_matches matched_words
    cases hf : find s with
    | none => simp
    | some r =>
      obtain ⟨w, rest⟩ := r
      simp [ih]

theorem wf_foldl_add (ws : List (List Char)) (m : WordMap) (h : WordMap.WF m) :
    WordMap.WF (ws.foldl (fun acc w => WordMap.add acc w 1) m) := by
  induction ws generalizing m with
  | nil => simpa using h
  | cons w ws ih => exact ih _ (wf_add m w 1 h)

/-! ## Lemmas on the scheduler -/

theorem pop_future_spec (turkic : Bool) (s : Sched) (f : directory_entry)
    (rest : List directory_entry) (h : s.futures = f :: rest) :
    pop_future turkic s =
      some ⟨merge s.word_counts (count_word_files turkic f), rest, s.merged ++ [f]⟩ := by
  unfold pop_future
  rw [h]

theorem pop_future_inv (turkic : Bool) (s s2 : Sched) (h : pop_future turkic s = some s2)
    (hinv : Sched.Inv turkic s) : Sched.Inv turkic s2 := by
  cases hf : s.futures with
  | nil => simp [pop_future, hf] at h
  | cons f rest =>
    rw [pop_future_spec turkic s f rest hf] at h
    cases h
    unfold Sched.Inv at *
    simp [List.foldl_append, hinv]

theorem walk_step_spec (turkic : Bool) (num_threads : Nat) (s : Sched) (e : directory_entry) :
    ∃ s2, walk_step turkic num_threads s e = some s2 ∧
      s2.merged ++ s2.futures = s.merged ++ s.futures ++ (if is_txt e then [e] else []) ∧
      (Sched.Inv turkic s → Sched.Inv turkic s2) ∧
      (s.futures.length ≤ num_threads → s2.futures.length ≤ num_threads) := by
  unfold walk_step
  by_cases ht : is_txt e = true
  · simp only [ht, Bool.not_true, Bool.false_eq_true, if_false, if_true]
    by_cases hlen : (submit s e).futures.length > num_threads
    · simp only [hlen, if_true]
      cases hf : s.futures with
      | nil =>
        have hsub : (submit s e).futures = e :: [] := by simp [submit, hf]
        rw [pop_future_spec turkic (submit s e) e [] hsub]
        refine ⟨_, rfl, by simp [submit], ?_, by simp⟩
        intro hinv
        exact pop_future_inv turkic (submit s e) _
          (pop_future_spec turkic (submit s e) e [] hsub) hinv
      | cons f rest =>
        have hsub : (submit s e).futures = f :: (rest ++ [e]) := by simp [submit, hf]
        rw [pop_future_spec turkic (submit s e) f (rest ++ [e]) hsub]
        refine ⟨_, rfl, by simp [submit], ?_, ?_⟩
        · intro hinv
          exact pop_future_inv turkic (submit s e) _
            (pop_future_spec turkic (submit s e) f (rest ++ [e]) hsub) hinv
        · intro hb
          simp only [List.length_cons, List.length_append, List.length_singleton,
            List.length_nil] at hb ⊢
          omega
    · simp only [hlen, if_false]
      refine ⟨_, rfl, by simp [submit], fun h => h, fun _ => by omega⟩
  · have ht2 : is_txt e = false := by simpa using ht
    simp only [ht2, Bool.not_false, if_true]
    exact ⟨s, rfl, by simp, fun h => h, fun h => h⟩

theorem walk_spec (turkic : Bool) (num_threads : Nat) (es : List directory_entry) :
    ∀ s : Sched, ∃ s2, walk turkic num_threads es s = some s2 ∧
      s2.merged ++ s2.futures = s.merged ++ s.futures ++ es.filter is_txt ∧
      (Sched.Inv turkic s → Sched.Inv turkic s2) ∧
      (s.futures.length ≤ num_threads → s2.futures.length ≤ num_threads) := by
  induction es with
  | nil => intro s; exact ⟨s, rfl, by simp, fun h => h, fun h => h⟩
  | cons e es ih =>
    intro s
    obtain ⟨s1, h1, hq1, hi1, hb1⟩ := walk_step_spec turkic num_threads s e
    obtain ⟨s2, h2, hq2, hi2, hb2⟩ := ih s1
    refine ⟨s2, ?_, ?_, fun h => hi2 (hi1 h), fun h => hb2 (hb1 h)⟩
    · simp [walk, h1, h2]
    · rw [hq2, hq1]
      by_cases ht : is_txt e = true
      · simp [ht, List.filter_cons]
      · have ht2 : is_txt e = false := by simpa using ht
        simp [ht2, List.filter_cons]

theorem drain_spec (turkic : Bool) (fuel : Nat) :
    ∀ s : Sched, s.futures.length ≤ fuel →
      ∃ s2, drain turkic fuel s = some s2 ∧ s2.futures = [] ∧
        s2.merged = s.merged ++ s.futures ∧
        (Sched.Inv turkic s → Sched.Inv turkic s2) := by
  induction fuel with
  | zero =>
    intro s hs
    have hnil : s.futures = [] := List.length_eq_zero.1 (by omega)
    exact ⟨s, by simp [drain, hnil], hnil, by simp [hnil], fun h => h⟩
  | succ n ih =>
    intro s hs
    cases hf : s.futures with
    | nil => exact ⟨s, by simp [drain, hf], hf, by simp, fun h => h⟩
    | cons f rest =>
      have hp := pop_future_spec turkic s f rest hf
      obtain ⟨s2, h2, he2, hm2, hi2⟩ :=
        ih ⟨merge s.word_counts (count_word_files turkic f), rest, s.merged ++ [f]⟩
          (by simp only [hf, List.length_cons] at hs; simpa using hs)
      refine ⟨s2, ?_, he2, by simpa using hm2, fun h => hi2 (pop_future_inv turkic s _ hp h)⟩
      simp [drain, hf, hp, h2]

/-- The walk and the final drain succeed for every positive `num_threads`,
leave the queue empty, merge the accepted entries in the order of the walk,
and yield the fold of the merge over their counts. -/
theorem aggregate_eq (turkic : Bool) (num_threads : Nat) (hC : 1 ≤ num_threads)
    (entries : List directory_entry) :
    aggregate turkic num_threads entries =
      some ⟨((entries.filter is_txt).map (count_word_files turkic)).foldl merge [],
            [], entries.filter is_txt⟩ := by
  unfold aggregate
  have hne : ¬ num_threads = 0 := by omega
  simp only [hne, if_false]
  obtain ⟨s1, h1, hq1, hi1, _⟩ := walk_spec turkic num_threads entries ⟨[], [], []⟩
  obtain ⟨s2, h2, he2, hm2, hi2⟩ := drain_spec turkic s1.futures.length s1 (le_refl _)
  rw [h1, Option.some_bind, h2]
  have hinv : Sched.Inv turkic s2 := hi2 (hi1 (by simp [Sched.Inv]))
  have hmerged : s2.merged = entries.filter is_txt := by
    rw [hm2, hq1]; simp
  obtain ⟨wc, fs, mg⟩ := s2
  simp only [Sched.Inv] at hinv
  subst he2 hmerged
  rw [hinv]

theorem get_foldl_merge (ls : List WordMap) (g : WordMap) (k : List Char) :
    WordMap.get (ls.foldl merge g) k = WordMap.get g k + (ls.map (fun l => total l k)).sum := by
  induction ls generalizing g with
  | nil => simp
  | cons l ls ih =>
    simp only [List.foldl_cons, List.map_cons, List.sum_cons]
    rw [ih, get_merge]; ring

theorem find_foldl_merge (ls : List WordMap) (g : WordMap) (k : List Char) :
    WordMap.find (ls.foldl merge g) k =
      if ∃ l ∈ ls, k ∈ l.map Prod.fst then
        some (WordMap.get g k + (ls.map (fun l => total l k)).sum)
      else WordMap.find g k := by
  induction ls generalizing g with
  | nil => simp
  | cons l ls ih =>
    simp only [List.foldl_cons, List.map_cons, List.sum_cons]
    rw [ih, get_merge, find_merge]
    by_cases h2 : ∃ l2 ∈ ls, k ∈ l2.map Prod.fst
    · have h3 : ∃ l2 ∈ l :: ls, k ∈ l2.map Prod.fst := by
        obtain ⟨l2, hl2, hk⟩ := h2
        exact ⟨l2, List.mem_cons_of_mem _ hl2, hk⟩
      rw [if_pos h2, if_pos h3]; simp [add_assoc]
    · rw [if_neg h2]
      have hz : (ls.map (fun l => total l k)).sum = 0 := by
        apply List.sum_eq_zero
        intro x hx
        obtain ⟨l2, hl2, rfl⟩ := List.mem_map.1 hx
        have : l2.filter (fun kv => decide (kv.1 = k)) = [] := by
          rw [List.filter_eq_nil_iff]
          intro a ha hk
          exact h2 ⟨l2, hl2, List.mem_map.2 ⟨a, ha, by simpa using hk⟩⟩
        simp [total, this]
      by_cases h1 : k ∈ l.map Prod.fst
      · have h3 : ∃ l2 ∈ l :: ls, k ∈ l2.map Prod.fst := ⟨l, List.mem_cons_self _ _, h1⟩
        rw [if_pos h1, if_pos h3, hz]; simp
      · have h3 : ¬ ∃ l2 ∈ l :: ls, k ∈ l2.map Prod.fst := by
          rintro ⟨l2, hl2, hk⟩
          rcases List.mem_cons.1 hl2 with e | e
          · subst e; exact h1 hk
          · exact h2 ⟨l2, e, hk⟩
        rw [if_neg h1, if_neg h3]

theorem wf_count_word_files (turkic : Bool) (e : directory_entry) :
    WordMap.WF (count_word_files turkic e) := by
  unfold count_word_files
  split
  · simp [WordMap.WF]
  · split
    · simp [WordMap.WF]
    · have : ∀ (ls : List (List Char)) (m : WordMap), WordMap.WF m →
          WordMap.WF (ls.foldl (count_line turkic) m) := by
        intro ls
        induction ls with
        | nil => intro m hm; simpa using hm
        | cons l ls ih =>
          intro m hm
          simp only [List.foldl_cons]
          apply ih
          unfold count_line
          rw [count_matches_eq]
          exact wf_foldl_add _ m hm
      exact this _ [] (by simp [WordMap.WF])

/-! ## Lemmas on ranking -/

theorem select_first_spec (x : WordCount) (xs : List WordCount) :
    ((select_first count_order_desc x xs).1 :: (select_first count_order_desc x xs).2).Perm
        (x :: xs) ∧
      ∀ y ∈ (select_first count_order_desc x xs).2,
        y.count ≤ (select_first count_order_desc x xs).1.count := by
  induction xs generalizing x with
  | nil => simp [select_first]
  | cons y ys ih =>
    obtain ⟨hp, hmax⟩ := ih y
    unfold select_first
    by_cases hc : count_order_desc (select_first count_order_desc y ys).1 x = true
    · simp only [hc, if_true]
      refine ⟨?_, ?_⟩
      · exact (List.Perm.swap _ _ _).trans (List.Perm.cons x hp)
      · intro z hz
        rcases List.mem_cons.1 hz with e | e
        · subst e
          have : z.count < (select_first count_order_desc y ys).1.count := by
            simpa [count_order_desc] using hc
          omega
        · exact hmax z e
    · simp only [hc, if_false]
      refine ⟨List.Perm.refl _, ?_⟩
      intro z hz
      have hle : (select_first count_order_desc y ys).1.count ≤ x.count := by
        simpa [count_order_desc] using hc
      have hz2 : z ∈ (select_first count_order_desc y ys).1 ::
          (select_first count_order_desc y ys).2 := hp.symm.subset hz
      rcases List.mem_cons.1 hz2 with e | e
      · rw [e]; exact hle
      · exact le_trans (hmax z e) hle

theorem partial_sort_perm (k : Nat) :
    ∀ l : List WordCount, (partial_sort count_order_desc k l).Perm l := by
  induction k with
  | zero => intro l; simp [partial_sort]
  | succ k ih =>
    intro l
    cases l with
    | nil => simp [partial_sort]
    | cons x xs =>
      simp only [partial_sort]
      exact (List.Perm.cons _ (ih _)).trans (select_first_spec x xs).1

theorem partial_sort_spec (k : Nat) :
    ∀ l : List WordCount,
      PartialSortSpec count_order_desc k l (partial_sort count_order_desc k l) := by
  induction k with
  | zero => intro l; simp [PartialSortSpec, partial_sort]
  | succ k ih =>
    intro l
    cases l with
    | nil => simp [PartialSortSpec, partial_sort]
    | cons x xs =>
      obtain ⟨hp, hmax⟩ := select_first_spec x xs
      obtain ⟨ihp, ihs, ihd⟩ := ih (select_first count_order_desc x xs).2
      refine ⟨partial_sort_perm (k + 1) (x :: xs), ?_, ?_⟩
      · simp only [partial_sort, List.take_succ_cons, List.pairwise_cons]
        refine ⟨?_, ihs⟩
        intro a ha
        have ha2 : a ∈ (select_first count_order_desc x xs).2 :=
          ihp.subset (List.mem_of_mem_take ha)
        have := hmax a ha2
        simp only [count_order_desc, decide_eq_false_iff_not, not_lt]
        exact this
      · simp only [partial_sort, List.take_succ_cons, List.drop_succ_cons, List.mem_cons]
        intro a ha b hb
        rcases ha with e | e
        · subst e
          have hb2 : b ∈ (select_first count_order_desc x xs).2 :=
            ihp.subset (List.mem_of_mem_drop hb)
          have := hmax b hb2
          simp only [count_order_desc, decide_eq_false_iff_not, not_lt]
          exact this
        · exact ihd a e b hb

theorem isPartialSort_partial_sort : IsPartialSort (partial_sort count_order_desc) :=
  fun k l _ => partial_sort_spec k l

theorem sort_desc_perm_eq (l1 l2 : List Int) (h : l1.Perm l2) : sort_desc l1 = sort_desc l2 := by
  unfold sort_desc
  apply List.eq_of_perm_of_sorted (r := fun a b : Int => b ≤ a)
  · exact (List.perm_insertionSort _ l1).trans (h.trans (List.perm_insertionSort _ l2).symm)
  · exact List.sorted_insertionSort _ l1
  · exact List.sorted_insertionSort _ l2

/-- The counts of the first `k` places after a partial sort are the first `k`
counts of the sorted list of all counts. -/
theorem partial_sort_counts (k : Nat) (l out : List WordCount) (hk : k ≤ l.length)
    (h : PartialSortSpec count_order_desc k l out) :
    (out.take k).map WordCount.count = (sort_desc (l.map WordCount.count)).take k := by
  obtain ⟨hp, hs, hd⟩ := h
  have hlen : out.length = l.length := hp.length_eq
  have hsorted : List.Sorted (fun a b : Int => b ≤ a)
      ((out.take k).map WordCount.count ++ sort_desc ((out.drop k).map WordCount.count)) := by
    unfold List.Sorted
    rw [List.pairwise_append]
    refine ⟨?_, List.sorted_insertionSort _ _, ?_⟩
    · rw [List.pairwise_map]
      refine hs.imp ?_
      intro a b hab
      simpa [count_order_desc] using hab
    · intro a ha b hb
      obtain ⟨wa, hwa, rfl⟩ := List.mem_map.1 ha
      have hb2 : b ∈ (out.drop k).map WordCount.count :=
        (List.perm_insertionSort _ _).subset hb
      obtain ⟨wb, hwb, rfl⟩ := List.mem_map.1 hb2
      have := hd wa hwa wb hwb
      simpa [count_order_desc] using this
  have hperm : ((out.take k).map WordCount.count ++
      sort_desc ((out.drop k).map WordCount.count)).Perm (sort_desc (l.map WordCount.count)) := by
    have h1 : (sort_desc ((out.drop k).map WordCount.count)).Perm
        ((out.drop k).map WordCount.count) := List.perm_insertionSort _ _
    have h2 : ((out.take k).map WordCount.count ++ (out.drop k).map WordCount.count) =
        out.map WordCount.count := by
      rw [← List.map_append, List.take_append_drop]
    have h3 : (out.map WordCount.count).Perm (l.map WordCount.count) := hp.map _
    have h4 : (sort_desc (l.map WordCount.count)).Perm (l.map WordCount.count) :=
      List.perm_insertionSort _ _
    exact ((List.Perm.append_left _ h1).trans (h2 ▸ List.Perm.refl _)).trans (h3.trans h4.symm)
  have heq := List.eq_of_perm_of_sorted hperm hsorted (List.sorted_insertionSort _ _)
  have hl : ((out.take k).map WordCount.count).length = k := by
    simp [List.length_take]; omega
  rw [← heq, List.take_append_of_le_length (le_of_eq hl.symm),
    List.take_of_length_le (le_of_eq hl)]

theorem to_int_small (n : Nat) (h : n < 2 ^ 31) : to_int n = (n : Int) := by
  unfold to_int
  have h1 : n % 2 ^ 32 = n := Nat.mod_eq_of_lt (by omega)
  rw [h1, if_pos h]

theorem final_size_small (l : List WordCount) (h : l.length < 2 ^ 31) :
    final_size l = ((min 10 l.length : Nat) : Int) := by
  unfold final_size
  rw [to_int_small _ h]
  omega

theorem rank_small (psort : Nat → List WordCount → List WordCount) (l : List WordCount)
    (h : l.length < 2 ^ 31) :
    rank psort l = some ((psort (min 10 l.length) l).take (min 10 l.length)) := by
  unfold rank
  rw [final_size_small l h]
  have : ¬ (((min 10 l.length : Nat) : Int) < 0) := by omega
  simp only [this, if_false, Int.toNat_ofNat]

theorem rank_eq_some (psort : Nat → List WordCount → List WordCount) (l out : List WordCount)
    (h : rank psort l = some out) :
    0 ≤ final_size l ∧ out = (psort (final_size l).toNat l).take (final_size l).toNat := by
  unfold rank at h
  by_cases hneg : final_size l < 0
  · simp [hneg] at h
  · simp only [hneg, if_false, Option.some.injEq] at h
    exact ⟨by omega, h.symm⟩

theorem to_int_le (n : Nat) : to_int n ≤ (n : Int) := by
  unfold to_int
  have h1 : n % 2 ^ 32 ≤ n := Nat.mod_le _ _
  split <;> omega

/-! ## Lemmas for the claims -/

theorem sum_total_eq_sum_get (turkic : Bool) (es : List directory_entry) (W : List Char) :
    ((es.map (count_word_files turkic)).map (fun l => total l W)).sum =
      (es.map (fun e => WordMap.get (count_word_files turkic e) W)).sum := by
  rw [List.map_map]
  congr 1
  apply List.map_congr_left
  intro e _
  exact total_eq_get _ (wf_count_word_files turkic e) W

theorem filter_is_txt (entries : List directory_entry) :
    entries.filter (fun e => decide (path_extension e.path = ['.', 't', 'x', 't'] ∨
      path_extension e.path = ['.', 'T', 'X', 'T'])) = entries.filter is_txt := by
  apply List.filter_congr
  intro e _
  simp [is_txt, Bool.decide_or]

theorem aggregate_skip (turkic : Bool) (num_threads : Nat) (hC : 1 ≤ num_threads)
    (before after : List directory_entry) (e : directory_entry) (he : is_txt e = false) :
    aggregate turkic num_threads (before ++ e :: after) =
      aggregate turkic num_threads (before ++ after) := by
  rw [aggregate_eq turkic num_threads hC, aggregate_eq turkic num_threads hC]
  simp [List.filter_append, List.filter_cons, he]

theorem wf_foldl_merge (ls : List WordMap) (g : WordMap) (h : WordMap.WF g) :
    WordMap.WF (ls.foldl merge g) := by
  induction ls generalizing g with
  | nil => simpa using h
  | cons l ls ih => exact ih _ (wf_merge g l h)

theorem mem_keys_foldl_merge_nil (ls : List WordMap) (k : List Char) :
    k ∈ (ls.foldl merge []).map Prod.fst ↔ ∃ l ∈ ls, k ∈ l.map Prod.fst := by
  have h1 := find_eq_none_iff (ls.foldl merge []) k
  have h2 := find_foldl_merge ls [] k
  constructor
  · intro hk
    by_contra hne
    rw [if_neg hne] at h2
    exact (h1.1 (by rw [h2]; rfl)) hk
  · intro hex
    by_contra hk
    rw [if_pos hex, h1.2 hk] at h2
    cases h2

theorem length_to_word_array (order : WordMap → WordMap) (m : WordMap)
    (hord : (order m).Perm m) : (to_word_array order m).length = m.length := by
  simp [to_word_array, hord.length_eq]

theorem counts_to_word_array (order : WordMap → WordMap) (m : WordMap)
    (hord : (order m).Perm m) :
    ((to_word_array order m).map WordCount.count).Perm (m.map Prod.snd) := by
  have : (to_word_array order m).map WordCount.count = (order m).map Prod.snd := by
    simp [to_word_array, List.map_map, Function.comp_def]
  rw [this]
  exact hord.map _

/-- The ranking of an array of fewer than `2^31` entries. -/
theorem rank_spec_small (psort : Nat → List WordCount → List WordCount)
    (hps : IsPartialSort psort) (l : List WordCount) (h : l.length < 2 ^ 31) :
    rank psort l = some ((psort (min 10 l.length) l).take (min 10 l.length)) ∧
    ((psort (min 10 l.length) l).take (min 10 l.length)).map WordCount.count =
      (sort_desc (l.map WordCount.count)).take (min 10 l.length) ∧
    ((psort (min 10 l.length) l).take (min 10 l.length)).length = min 10 l.length ∧
    PartialSortSpec count_order_desc (min 10 l.length) l (psort (min 10 l.length) l) := by
  have hk : min 10 l.length ≤ l.length := Nat.min_le_right _ _
  have hspec := hps (min 10 l.length) l hk
  refine ⟨rank_small psort l h, partial_sort_counts _ l _ hk hspec, ?_, hspec⟩
  rw [List.length_take, hspec.1.length_eq]
  omega

theorem letter_toNat (d : Nat) (h : d < 26) : (Char.ofNat (97 + d)).toNat = 97 + d := by
  interval_cases d <;> rfl

theorem map_letter_inj : ∀ (l1 l2 : List Nat), (∀ d ∈ l1, d < 26) → (∀ d ∈ l2, d < 26) →
    l1.map (fun d => Char.ofNat (97 + d)) = l2.map (fun d => Char.ofNat (97 + d)) →
    l1 = l2 := by
  intro l1
  induction l1 with
  | nil =>
    intro l2 _ _ h
    cases l2 with
    | nil => rfl
    | cons b l2 => simp at h
  | cons a l1 ih =>
    intro l2 h1 h2 h
    cases l2 with
    | nil => simp at h
    | cons b l2 =>
      simp only [List.map_cons, List.cons.injEq] at h
      have ha := letter_toNat a (h1 a (List.mem_cons_self _ _))
      have hb := letter_toNat b (h2 b (List.mem_cons_self _ _))
      have hab : a = b := by
        have := congrArg Char.toNat h.1
        rw [ha, hb] at this
        omega
      rw [hab, ih l2 (fun d hd => h1 d (List.mem_cons_of_mem _ hd))
        (fun d hd => h2 d (List.mem_cons_of_mem _ hd)) h.2]

theorem word_of_injective : Function.Injective word_of := by
  intro i j h
  simp only [word_of, List.cons.injEq, true_and] at h
  have hd := map_letter_inj _ _ (fun d hd => Nat.digits_lt_base (by decide) hd)
    (fun d hd => Nat.digits_lt_base (by decide) hd) h
  exact Nat.digits.injective 26 hd

theorem wf_unit_map (n : Nat) : WordMap.WF (unit_map n) := by
  unfold WordMap.WF unit_map
  rw [List.map_map]
  exact List.Nodup.map word_of_injective (List.nodup_range n)

theorem length_unit_map (n : Nat) : (unit_map n).length = n := by
  simp [unit_map]

theorem rank_of_three (psort : Nat → List WordCount → List WordCount)
    (hps : IsPartialSort psort) (wa : List WordCount)
    (hperm : wa.Perm [⟨['c', 'a', 't'], 2⟩, ⟨['d', 'o', 'g'], 3⟩, ⟨['b', 'i', 'r', 'd'], 1⟩]) :
    rank psort wa =
      some [⟨['d', 'o', 'g'], 3⟩, ⟨['c', 'a', 't'], 2⟩, ⟨['b', 'i', 'r', 'd'], 1⟩] := by
  have hl : wa.length = 3 := hperm.length_eq
  obtain ⟨hr, hc, _, hspec⟩ := rank_spec_small psort hps wa (by rw [hl]; decide)
  have hmin : min 10 wa.length = 3 := by rw [hl]; rfl
  rw [hmin] at hr hc hspec
  rw [hr]
  have hsorted : sort_desc (wa.map WordCount.count) = [3, 2, 1] := by
    rw [sort_desc_perm_eq _ _ (hperm.map WordCount.count)]
    decide
  rw [hsorted] at hc
  have hmem : ∀ w ∈ (psort 3 wa).take 3,
      w = ⟨['c', 'a', 't'], 2⟩ ∨ w = ⟨['d', 'o', 'g'], 3⟩ ∨ w = ⟨['b', 'i', 'r', 'd'], 1⟩ := by
    intro w hw
    have := hperm.subset (hspec.1.subset (List.mem_of_mem_take hw))
    simpa using this
  rcases hout : (psort 3 wa).take 3 with _ | ⟨x, _ | ⟨y, _ | ⟨z, _ | ⟨u, rest⟩⟩⟩⟩
  · rw [hout] at hc; simp at hc
  · rw [hout] at hc; simp at hc
  · rw [hout] at hc; simp at hc
  · rw [hout] at hc hmem
    simp only [List.map_cons, List.map_nil, List.take, List.cons.injEq, and_true] at hc
    obtain ⟨hx, hy, hz⟩ := hc
    have mx := hmem x (by simp)
    have my := hmem y (by simp)
    have mz := hmem z (by simp)
    have ex : x = ⟨['d', 'o', 'g'], 3⟩ := by
      rcases mx with e | e | e
      · rw [e] at hx; simp at hx
      · exact e
      · rw [e] at hx; simp at hx
    have ey : y = ⟨['c', 'a', 't'], 2⟩ := by
      rcases my with e | e | e
      · exact e
      · rw [e] at hy; simp at hy
      · rw [e] at hy; simp at hy
    have ez : z = ⟨['b', 'i', 'r', 'd'], 1⟩ := by
      rcases mz with e | e | e
      · rw [e] at hz; simp at hz
      · rw [e] at hz; simp at hz
      · exact e
    rw [ex, ey, ez]
  · rw [hout] at hc; simp at hc

/-- Where the size of the map fits an `int` (`N < 2^31`), in whatever order
its entries are iterated and for every conforming `partial_sort`, the ranking
succeeds and the counts of the ranked output are the first `min 10 N` elements
of the list of all counts sorted in non-increasing order; the output has
exactly `min 10 N` entries, is in descending count order, no omitted entry has
a larger count than a reported one, and the reported counts are the same for
every iteration order. -/
theorem rank_top_counts (psort : Nat → List WordCount → List WordCount)
    (hps : IsPartialSort psort) (m : WordMap) (order : WordMap → WordMap)
    (hord : (order m).Perm m) (hN : m.length < 2 ^ 31) :
    ∃ out, rank psort (to_word_array order m) = some out ∧
      out.map WordCount.count = (sort_desc (m.map Prod.snd)).take (min 10 m.length) ∧
      out.length = min 10 m.length ∧
      out.Pairwise (fun a b => b.count ≤ a.count) ∧
      (∀ w ∈ to_word_array order m, w ∉ out → ∀ r ∈ out, w.count ≤ r.count) ∧
      (∀ (order2 : WordMap → WordMap) (psort2 : Nat → List WordCount → List WordCount),
        (order2 m).Perm m → IsPartialSort psort2 →
        ∃ out2, rank psort2 (to_word_array order2 m) = some out2 ∧
          out2.map WordCount.count = out.map WordCount.count) := by
  have hlen := length_to_word_array order m hord
  have hl : (to_word_array order m).length < 2 ^ 31 := by rw [hlen]; exact hN
  obtain ⟨hr, hc, hn, hp, hs, hd⟩ := rank_spec_small psort hps _ hl
  have hcounts : ((psort (min 10 (to_word_array order m).length)
      (to_word_array order m)).take (min 10 (to_word_array order m).length)).map
        WordCount.count = (sort_desc (m.map Prod.snd)).take (min 10 m.length) := by
    rw [hc, sort_desc_perm_eq _ _ (counts_to_word_array order m hord), hlen]
  refine ⟨_, hr, hcounts, by rw [hn, hlen], ?_, ?_, ?_⟩
  · refine hs.imp ?_
    intro a b hab
    simpa [count_order_desc] using hab
  · intro w hw hnot r hr2
    have hw2 : w ∈ psort (min 10 (to_word_array order m).length) (to_word_array order m) :=
      hp.symm.subset hw
    rw [← List.take_append_drop (min 10 (to_word_array order m).length)
      (psort (min 10 (to_word_array order m).length) (to_word_array order m))] at hw2
    rcases List.mem_append.1 hw2 with e | e
    · exact absurd e hnot
    · have := hd r hr2 w e
      simpa [count_order_desc] using this
  · intro order2 psort2 hord2 hps2
    have hlen2 := length_to_word_array order2 m hord2
    have hl2 : (to_word_array order2 m).length < 2 ^ 31 := by rw [hlen2]; exact hN
    obtain ⟨hr2, hc2, _, _⟩ := rank_spec_small psort2 hps2 _ hl2
    refine ⟨_, hr2, ?_⟩
    rw [hcounts, hc2, sort_desc_perm_eq _ _ (counts_to_word_array order2 m hord2), hlen2]

theorem rank_top_counts_example :
    ∃ out, rank (partial_sort count_order_desc)
        (to_word_array List.reverse [(['c', 'a', 't'], 2), (['d', 'o', 'g'], 3)]) = some out ∧
      out.map WordCount.count =
        (sort_desc ([(['c', 'a', 't'], 2), (['d', 'o', 'g'], 3)].map Prod.snd)).take
          (min 10 [(['c', 'a', 't'], (2 : Int)), (['d', 'o', 'g'], 3)].length) ∧
      out.length = min 10 [(['c', 'a', 't'], (2 : Int)), (['d', 'o', 'g'], 3)].length :=
  let ⟨out, h1, h2, h3, _⟩ := rank_top_counts (partial_sort count_order_desc)
    isPartialSort_partial_sort [(['c', 'a', 't'], 2), (['d', 'o', 'g'], 3)] List.reverse
    (List.reverse_perm _) (by decide)
  ⟨out, h1, h2, h3⟩

/-! ## The claims -/

/-- C1: for every walk sequence and every parallelism `num_threads ≥ 1`, the
walk and the final drain succeed, and the global map they leave gives for every
word `W` the sum, over the entries whose extension is `.txt` or `.TXT`, of the
count `count_word_files` returns for `W` (an absent word counting as 0); every
other parallelism `≥ 1` yields the same result. -/
theorem C1_global_map_is_sum (turkic : Bool) (num_threads : Nat) (hC : 1 ≤ num_threads)
    (entries : List directory_entry) :
    ∃ s, aggregate turkic num_threads entries = some s ∧
      (∀ W, WordMap.get s.word_counts W =
        ((entries.filter (fun e => decide (path_extension e.path = ['.', 't', 'x', 't'] ∨
            path_extension e.path = ['.', 'T', 'X', 'T']))).map
          (fun e => WordMap.get (count_word_files turkic e) W)).sum) ∧
      ∀ C2, 1 ≤ C2 → aggregate turkic C2 entries = some s := by
  refine ⟨_, aggregate_eq turkic num_threads hC entries, ?_, ?_⟩
  · intro W
    simp only
    rw [get_foldl_merge, sum_total_eq_sum_get, filter_is_txt]
    simp [WordMap.get, WordMap.find]
  · intro C2 hC2
    exact aggregate_eq turkic C2 hC2 entries

theorem C1_witness :
    1 ≤ 2 ∧
    ∃ s, aggregate false 2 [a_txt, a_Txt, b_txt] = some s ∧
      WordMap.get s.word_counts ['d', 'o', 'g'] =
        (([a_txt, a_Txt, b_txt].filter
            (fun e => decide (path_extension e.path = ['.', 't', 'x', 't'] ∨
              path_extension e.path = ['.', 'T', 'X', 'T']))).map
          (fun e => WordMap.get (count_word_files false e) ['d', 'o', 'g'])).sum ∧
      aggregate false 7 [a_txt, a_Txt, b_txt] = some s :=
  ⟨by decide,
   let ⟨s, h1, h2, h3⟩ := C1_global_map_is_sum false 2 (by decide) [a_txt, a_Txt, b_txt]
   ⟨s, h1, h2 ['d', 'o', 'g'], h3 7 (by decide)⟩⟩

/-- C3 (defect of the code): the claim asks for `min 10 N` ranked entries, but
the code takes `std::min(10, (int)word_array.size())`.  For the map of the
`2^32 + 3` distinct words `word_of 0`, `word_of 1`, ..., each counted once, the
size converted to `int` is 3, so `final_size` is 3 and the ranked output has 3
entries, although `min 10 N = 10`. -/
theorem C3_final_size_truncates :
    WordMap.WF (unit_map 4294967299) ∧
    (unit_map 4294967299).length = 2 ^ 32 + 3 ∧
    final_size (to_word_array List.reverse (unit_map 4294967299)) = 3 ∧
    (rank (partial_sort count_order_desc)
      (to_word_array List.reverse (unit_map 4294967299))).map List.length = some 3 ∧
    min 10 (unit_map 4294967299).length = 10 := by
  have hlen : (to_word_array List.reverse (unit_map 4294967299)).length = 4294967299 := by
    rw [length_to_word_array List.reverse _ (List.reverse_perm _), length_unit_map]
  have hfs : final_size (to_word_array List.reverse (unit_map 4294967299)) = 3 := by
    unfold final_size
    rw [hlen]
    decide
  have hrank : rank (partial_sort count_order_desc)
      (to_word_array List.reverse (unit_map 4294967299)) =
      some ((partial_sort count_order_desc 3
        (to_word_array List.reverse (unit_map 4294967299))).take 3) := by
    unfold rank
    rw [hfs]
    rfl
  refine ⟨wf_unit_map _, ?_, hfs, ?_, ?_⟩
  · rw [length_unit_map]; norm_num
  · rw [hrank, Option.map_some', List.length_take, (partial_sort_perm 3 _).length_eq, hlen]
    decide
  · rw [length_unit_map]
    decide

/-- C4 as stated fails: `a.txt` holds `cat` twice, so the global map gives
`cat` the count 2, not 1, and the second output line is `2 cat`. -/
theorem C4_counterexample :
    (aggregate false 1 [a_txt, b_txt]).map
      (fun s => WordMap.find s.word_counts ['c', 'a', 't']) = some (some 2) ∧
    count_words false 1 List.reverse (partial_sort count_order_desc) [a_txt, b_txt] =
      some ["3 dog".toList, "2 cat".toList, "1 bird".toList] := by
  decide

/-- C4 (amended): for the corpus of `a.txt` holding the line "cat dog cat" and
`b.txt` holding the line "dog dog bird", walked in either order with any
`num_threads ≥ 1`, the global map is {cat:2, dog:3, bird:1}, and for every
iteration order of the map and every conforming `partial_sort` the output is
the lines `3 dog`, `2 cat`, `1 bird` in that order. -/
theorem C4_example_corpus (turkic : Bool) (num_threads : Nat) (hC : 1 ≤ num_threads)
    (entries : List directory_entry)
    (hent : entries = [a_txt, b_txt] ∨ entries = [b_txt, a_txt])
    (order : WordMap → WordMap) (hord : ∀ m, (order m).Perm m)
    (psort : Nat → List WordCount → List WordCount) (hps : IsPartialSort psort) :
    (∃ s, aggregate turkic num_threads entries = some s ∧
      s.word_counts.Perm [(['c', 'a', 't'], 2), (['d', 'o', 'g'], 3), (['b', 'i', 'r', 'd'], 1)] ∧
      WordMap.WF s.word_counts) ∧
    count_words turkic num_threads order psort entries =
      some ["3 dog".toList, "2 cat".toList, "1 bird".toList] := by
  have hmap : ∃ wc : WordMap,
      ((entries.filter is_txt).map (count_word_files turkic)).foldl merge [] = wc ∧
      wc.Perm [(['c', 'a', 't'], 2), (['d', 'o', 'g'], 3), (['b', 'i', 'r', 'd'], 1)] ∧
      WordMap.WF wc := by
    refine ⟨_, rfl, ?_⟩
    rcases hent with e | e <;> subst e <;> cases turkic <;> decide
  obtain ⟨wc, hwc, hperm, hwf⟩ := hmap
  have hagg := aggregate_eq turkic num_threads hC entries
  rw [hwc] at hagg
  refine ⟨⟨_, hagg, hperm, hwf⟩, ?_⟩
  unfold count_words
  rw [hagg, Option.some_bind]
  have hwa : (to_word_array order wc).Perm
      [⟨['c', 'a', 't'], 2⟩, ⟨['d', 'o', 'g'], 3⟩, ⟨['b', 'i', 'r', 'd'], 1⟩] := by
    have := ((hord wc).trans hperm).map (fun kv : List Char × Int => (⟨kv.1, kv.2⟩ : WordCount))
    simpa [to_word_array] using this
  rw [rank_of_three psort hps _ hwa]
  decide

theorem C4_witness :
    (∃ s, aggregate false 2 [b_txt, a_txt] = some s ∧
      s.word_counts.Perm [(['c', 'a', 't'], 2), (['d', 'o', 'g'], 3), (['b', 'i', 'r', 'd'], 1)] ∧
      WordMap.WF s.word_counts) ∧
    count_words false 2 List.reverse (partial_sort count_order_desc) [b_txt, a_txt] =
      some ["3 dog".toList, "2 cat".toList, "1 bird".toList] :=
  C4_example_corpus false 2 (by decide) [b_txt, a_txt] (Or.inr rfl) List.reverse
    (fun m => List.reverse_perm m) (partial_sort count_order_desc) isPartialSort_partial_sort

/-- C5 as stated fails: with `num_threads = 1` and one task queued, submitting
a second task makes the queue length `2 = num_threads + 1`, which does not
exceed `num_threads + 1`, and the scheduler drains the head all the same. -/
theorem C5_counterexample :
    is_txt b_txt = true ∧
    (submit ⟨[], [a_txt], []⟩ b_txt).futures.length = 1 + 1 ∧
    ¬ ((submit ⟨[], [a_txt], []⟩ b_txt).futures.length > 1 + 1) ∧
    walk_step false 1 ⟨[], [a_txt], []⟩ b_txt =
      some ⟨merge [] (count_word_files false a_txt), [b_txt], [a_txt]⟩ ∧
    walk_step false 1 ⟨[], [a_txt], []⟩ b_txt ≠ some (submit ⟨[], [a_txt], []⟩ b_txt) := by
  decide

/-- C5 (amended): the bound of the pending queue is `num_threads`.  After an
accepted entry is submitted, the scheduler drains the head of the queue (and
only the head) exactly when the queue length then exceeds `num_threads`;
otherwise the queue is left as submitted.  So a queue holding
`num_threads + 1` tasks after a submission is drained to `num_threads`, and
the queue never holds more than `num_threads` tasks after an iteration of the
walk. -/
theorem C5_queue_bound (turkic : Bool) (num_threads : Nat) (s : Sched) (e : directory_entry)
    (he : is_txt e = true) :
    ((submit s e).futures.length > num_threads →
      ∃ head rest, (submit s e).futures = head :: rest ∧
        walk_step turkic num_threads s e =
          some ⟨merge s.word_counts (count_word_files turkic head), rest,
                s.merged ++ [head]⟩) ∧
    (¬ (submit s e).futures.length > num_threads →
      walk_step turkic num_threads s e = some (submit s e)) ∧
    ((submit s e).futures.length = num_threads + 1 →
      ∃ s2, walk_step turkic num_threads s e = some s2 ∧ s2.futures.length = num_threads) ∧
    (s.futures.length ≤ num_threads →
      ∃ s2, walk_step turkic num_threads s e = some s2 ∧ s2.futures.length ≤ num_threads) ∧
    (∀ entries, ∃ s2, walk turkic num_threads entries ⟨[], [], []⟩ = some s2 ∧
      s2.futures.length ≤ num_threads) := by
  have hdrain : (submit s e).futures.length > num_threads →
      ∃ head rest, (submit s e).futures = head :: rest ∧
        walk_step turkic num_threads s e =
          some ⟨merge s.word_counts (count_word_files turkic head), rest,
                s.merged ++ [head]⟩ := by
    intro hlen
    cases hf : (submit s e).futures with
    | nil => simp [submit] at hf
    | cons f rest =>
      refine ⟨f, rest, rfl, ?_⟩
      have := pop_future_spec turkic (submit s e) f rest hf
      simp only [walk_step, he, Bool.not_true, Bool.false_eq_true, if_false, hlen, if_true]
      rw [this]
      rfl
  refine ⟨hdrain, ?_, ?_, ?_, ?_⟩
  · intro hlen
    simp [walk_step, he, hlen]
  · intro hlen
    obtain ⟨f, rest, hf, hw⟩ := hdrain (by omega)
    refine ⟨_, hw, ?_⟩
    rw [hf] at hlen
    simpa using hlen
  · intro hb
    obtain ⟨s2, h1, _, _, h4⟩ := walk_step_spec turkic num_threads s e
    exact ⟨s2, h1, h4 hb⟩
  · intro entries
    obtain ⟨s2, h1, _, _, h4⟩ := walk_spec turkic num_threads entries ⟨[], [], []⟩
    exact ⟨s2, h1, h4 (by simp)⟩

theorem C5_witness :
    is_txt b_txt = true ∧
    ((submit ⟨[], [a_txt], []⟩ b_txt).futures.length = 1 + 1 →
      ∃ s2, walk_step false 1 ⟨[], [a_txt], []⟩ b_txt = some s2 ∧ s2.futures.length = 1) :=
  ⟨by decide, (C5_queue_bound false 1 ⟨[], [a_txt], []⟩ b_txt (by decide)).2.2.1⟩

/-- C7: an entry is submitted exactly when its extension is the string `.txt`
or the string `.TXT`: one loop iteration on such an entry appends it to the
tasks (queued or merged), and on any other entry leaves the state untouched,
so that the entry contributes nothing to the result of the run.  `a.Txt` is
skipped; `a.txt` and `a.TXT` are counted. -/
theorem C7_extension_filter (turkic : Bool) (num_threads : Nat) (hC : 1 ≤ num_threads) :
    (∀ (s : Sched) (e : directory_entry),
      (path_extension e.path = ['.', 't', 'x', 't'] ∨
        path_extension e.path = ['.', 'T', 'X', 'T']) →
      ∃ s2, walk_step turkic num_threads s e = some s2 ∧
        s2.merged ++ s2.futures = s.merged ++ s.futures ++ [e]) ∧
    (∀ (s : Sched) (e : directory_entry),
      ¬ (path_extension e.path = ['.', 't', 'x', 't'] ∨
        path_extension e.path = ['.', 'T', 'X', 'T']) →
      walk_step turkic num_threads s e = some s ∧
      ∀ before after, aggregate turkic num_threads (before ++ e :: after) =
        aggregate turkic num_threads (before ++ after)) ∧
    path_extension a_Txt.path = ['.', 'T', 'x', 't'] ∧
    walk_step turkic num_threads ⟨[], [], []⟩ a_Txt = some ⟨[], [], []⟩ ∧
    (∃ s2, walk_step turkic num_threads ⟨[], [], []⟩ a_txt = some s2 ∧
      s2.merged ++ s2.futures = [a_txt]) ∧
    (∃ s2, walk_step turkic num_threads ⟨[], [], []⟩ a_TXT = some s2 ∧
      s2.merged ++ s2.futures = [a_TXT]) := by
  have hyes : ∀ (s : Sched) (e : directory_entry), is_txt e = true →
      ∃ s2, walk_step turkic num_threads s e = some s2 ∧
        s2.merged ++ s2.futures = s.merged ++ s.futures ++ [e] := by
    intro s e he
    obtain ⟨s2, h1, h2, _, _⟩ := walk_step_spec turkic num_threads s e
    exact ⟨s2, h1, by simpa [he] using h2⟩
  refine ⟨?_, ?_, by decide, ?_, ?_, ?_⟩
  · intro s e he
    exact hyes s e (by simpa [is_txt, Bool.decide_or] using he)
  · intro s e he
    have he2 : is_txt e = false := by
      simpa [is_txt, Bool.decide_or] using he
    refine ⟨by simp [walk_step, he2], ?_⟩
    intro before after
    exact aggregate_skip turkic num_threads hC before after e he2
  · have : is_txt a_Txt = false := by decide
    simp [walk_step, this]
  · simpa using hyes ⟨[], [], []⟩ a_txt (by decide)
  · simpa using hyes ⟨[], [], []⟩ a_TXT (by decide)

theorem C7_witness :
    1 ≤ 3 ∧
    (path_extension b_txt.path = ['.', 't', 'x', 't'] ∨
      path_extension b_txt.path = ['.', 'T', 'X', 'T']) ∧
    (∃ s2, walk_step false 3 ⟨[], [a_txt], []⟩ b_txt = some s2 ∧
      s2.merged ++ s2.futures = [] ++ [a_txt] ++ [b_txt]) ∧
    ¬ (path_extension a_Txt.path = ['.', 't', 'x', 't'] ∨
      path_extension a_Txt.path = ['.', 'T', 'X', 'T']) ∧
    walk_step false 3 ⟨[], [a_txt], []⟩ a_Txt = some ⟨[], [a_txt], []⟩ ∧
    aggregate false 3 ([a_txt] ++ a_Txt :: [b_txt]) = aggregate false 3 ([a_txt] ++ [b_txt]) :=
  ⟨by decide, by decide,
   (C7_extension_filter false 3 (by decide)).1 ⟨[], [a_txt], []⟩ b_txt (by decide),
   by decide,
   ((C7_extension_filter false 3 (by decide)).2.1 ⟨[], [a_txt], []⟩ a_Txt (by decide)).1,
   ((C7_extension_filter false 3 (by decide)).2.1 ⟨[], [a_txt], []⟩ a_Txt (by decide)).2
     [a_txt] [b_txt]⟩

/-- C9: the merge step is order-independent.  Folding `merge` over a list of
per-file maps and over any permutation of it yields global maps with the same
entry for every word; merging the maps one at a time into `g` yields the same
entries as first merging them into one map and merging that into `g`; and for
two maps `merge a b` and `merge b a` have the same entries. -/
theorem C9_merge_order_independent (g : WordMap) (ls ls2 : List WordMap)
    (hperm : ls.Perm ls2) :
    (∀ k, WordMap.find (ls.foldl merge g) k = WordMap.find (ls2.foldl merge g) k) ∧
    (∀ k, WordMap.find (ls.foldl merge g) k =
      WordMap.find (merge g (ls.foldl merge [])) k) ∧
    (∀ a b : WordMap, WordMap.WF a → WordMap.WF b →
      ∀ k, WordMap.find (merge a b) k = WordMap.find (merge b a) k) := by
  refine ⟨?_, ?_, ?_⟩
  · intro k
    rw [find_foldl_merge, find_foldl_merge]
    have hsum : (ls.map (fun l => total l k)).sum = (ls2.map (fun l => total l k)).sum :=
      (hperm.map _).sum_eq
    have hex : (∃ l ∈ ls, k ∈ l.map Prod.fst) ↔ (∃ l ∈ ls2, k ∈ l.map Prod.fst) := by
      constructor
      · rintro ⟨l, hl, hk⟩; exact ⟨l, hperm.subset hl, hk⟩
      · rintro ⟨l, hl, hk⟩; exact ⟨l, hperm.symm.subset hl, hk⟩
    by_cases h : ∃ l ∈ ls, k ∈ l.map Prod.fst
    · rw [if_pos h, if_pos (hex.1 h), hsum]
    · rw [if_neg h, if_neg (fun h2 => h (hex.2 h2))]
  · intro k
    rw [find_foldl_merge, find_merge]
    have hwf : WordMap.WF (ls.foldl merge []) := wf_foldl_merge ls [] (by simp [WordMap.WF])
    have hmem := mem_keys_foldl_merge_nil ls k
    by_cases h : ∃ l ∈ ls, k ∈ l.map Prod.fst
    · rw [if_pos h, if_pos (hmem.2 h), total_eq_get _ hwf, get_foldl_merge]
      simp [WordMap.get, WordMap.find]
    · rw [if_neg h, if_neg (fun h2 => h (hmem.1 h2))]
  · intro a b ha hb k
    rw [find_merge, find_merge, total_eq_get a ha, total_eq_get b hb]
    by_cases hka : k ∈ a.map Prod.fst <;> by_cases hkb : k ∈ b.map Prod.fst
    · rw [if_pos hkb, if_pos hka, add_comm]
    · rw [if_neg hkb, if_pos hka]
      have hn := (find_eq_none_iff b k).2 hkb
      cases hfa : WordMap.find a k with
      | none => exact absurd ((find_eq_none_iff a k).1 hfa) (by simpa using hka)
      | some v => simp [WordMap.get, hfa, hn]
    · rw [if_pos hkb, if_neg hka]
      have hn := (find_eq_none_iff a k).2 hka
      cases hfb : WordMap.find b k with
      | none => exact absurd ((find_eq_none_iff b k).1 hfb) (by simpa using hkb)
      | some v => simp [WordMap.get, hfb, hn]
    · rw [if_neg hkb, if_neg hka, (find_eq_none_iff a k).2 hka, (find_eq_none_iff b k).2 hkb]

theorem C9_witness :
    WordMap.find ([count_word_files false a_txt, count_word_files false b_txt].foldl
        merge [(['d', 'o', 'g'], 5)]) ['d', 'o', 'g'] =
      WordMap.find ([count_word_files false b_txt, count_word_files false a_txt].foldl
        merge [(['d', 'o', 'g'], 5)]) ['d', 'o', 'g'] ∧
    WordMap.find ([count_word_files false a_txt, count_word_files false b_txt].foldl
        merge [(['d', 'o', 'g'], 5)]) ['d', 'o', 'g'] = some 8 :=
  ⟨(C9_merge_order_independent [(['d', 'o', 'g'], 5)]
    [count_word_files false a_txt, count_word_files false b_txt]
    [count_word_files false b_txt, count_word_files false a_txt]
    (List.Perm.swap _ _ [])).1 ['d', 'o', 'g'], by decide⟩

/-- C10: whenever the ranking of a global map produces an output, every
(word, count) pair of the output is an entry of the map with that exact count,
no word is reported twice, and the output holds at most `min 10 N` entries:
the entries beyond them are erased from the result.  For a map with fewer than
`2^31` entries the ranking does produce an output, of exactly `min 10 N`
entries. -/
theorem C10_ranked_entries (psort : Nat → List WordCount → List WordCount)
    (hps : IsPartialSort psort) (m : WordMap) (hm : WordMap.WF m)
    (order : WordMap → WordMap) (hord : (order m).Perm m) :
    (∀ out, rank psort (to_word_array order m) = some out →
      (∀ w ∈ out, WordMap.find m w.word = some w.count ∧ (w.word, w.count) ∈ m) ∧
      (out.map WordCount.word).Nodup ∧
      out.length ≤ min 10 m.length) ∧
    (m.length < 2 ^ 31 →
      ∃ out, rank psort (to_word_array order m) = some out ∧ out.length = min 10 m.length) := by
  have hlen := length_to_word_array order m hord
  refine ⟨?_, ?_⟩
  · intro out hout
    obtain ⟨hnn, hout2⟩ := rank_eq_some psort _ out hout
    have hfs : final_size (to_word_array order m) ≤ 10 ∧
        final_size (to_word_array order m) ≤ (m.length : Int) := by
      have := to_int_le (to_word_array order m).length
      rw [hlen] at this
      unfold final_size
      rw [hlen]
      omega
    have hk : (final_size (to_word_array order m)).toNat ≤ (to_word_array order m).length := by
      rw [hlen]; omega
    obtain ⟨hp, _, _⟩ := hps _ _ hk
    have hmem : ∀ w ∈ out, w ∈ to_word_array order m := by
      intro w hw
      rw [hout2] at hw
      exact hp.subset (List.mem_of_mem_take hw)
    refine ⟨?_, ?_, ?_⟩
    · intro w hw
      have hw2 := hmem w hw
      simp only [to_word_array, List.mem_map] at hw2
      obtain ⟨kv, hkv, rfl⟩ := hw2
      have hin : (kv.1, kv.2) ∈ m := hord.subset hkv
      exact ⟨(find_eq_some_iff m hm kv.1 kv.2).2 hin, hin⟩
    · have hnd : ((to_word_array order m).map WordCount.word).Nodup := by
        have : (to_word_array order m).map WordCount.word = (order m).map Prod.fst := by
          simp [to_word_array, List.map_map, Function.comp_def]
        rw [this]
        exact (hord.map Prod.fst).nodup_iff.2 hm
      have hnd2 : ((psort (final_size (to_word_array order m)).toNat
          (to_word_array order m)).map WordCount.word).Nodup :=
        (hp.map WordCount.word).nodup_iff.2 hnd
      rw [hout2]
      exact hnd2.sublist ((List.take_sublist _ _).map _)
    · rw [hout2, List.length_take, hp.length_eq, hlen]
      omega
  · intro hN
    have hl : (to_word_array order m).length < 2 ^ 31 := by rw [hlen]; exact hN
    obtain ⟨hr, _, hn, _⟩ := rank_spec_small psort hps _ hl
    exact ⟨_, hr, by rw [hn, hlen]⟩

theorem C10_witness :
    rank (partial_sort count_order_desc)
        (to_word_array List.reverse [(['c', 'a', 't'], 2), (['d', 'o', 'g'], 3)]) =
      some [⟨['d', 'o', 'g'], 3⟩, ⟨['c', 'a', 't'], 2⟩] ∧
    (∀ w ∈ [(⟨['d', 'o', 'g'], 3⟩ : WordCount), ⟨['c', 'a', 't'], 2⟩],
      WordMap.find [(['c', 'a', 't'], 2), (['d', 'o', 'g'], 3)] w.word = some w.count ∧
      (w.word, w.count) ∈ [(['c', 'a', 't'], (2 : Int)), (['d', 'o', 'g'], 3)]) ∧
    ([(⟨['d', 'o', 'g'], 3⟩ : WordCount), ⟨['c', 'a', 't'], 2⟩].map WordCount.word).Nodup ∧
    [(⟨['d', 'o', 'g'], 3⟩ : WordCount), ⟨['c', 'a', 't'], 2⟩].length ≤
      min 10 [(['c', 'a', 't'], (2 : Int)), (['d', 'o', 'g'], 3)].length :=
  ⟨by decide,
   (C10_ranked_entries (partial_sort count_order_desc) isPartialSort_partial_sort
    [(['c', 'a', 't'], 2), (['d', 'o', 'g'], 3)] (by decide) List.reverse
    (List.reverse_perm _)).1 [⟨['d', 'o', 'g'], 3⟩, ⟨['c', 'a', 't'], 2⟩] (by decide)⟩

end CppUnicode
